/-
Verification of the hermit-sync synchronization primitives.

Shallow embedding of the repository sources:
  src/backoff.rs          (exponential backoff pacer)
  src/interrupts.rs       (interrupt-flag gate: read_disable / restore / without_interrupts)
  src/mutex/ticket.rs     (ticket mutex)
  src/mutex/interrupt.rs  (interrupt-masking mutex wrapper)
  src/rwlock.rs           (readers-writer spinlock)

Machine words (Rust `usize` on the 64-bit targets of this crate) are modelled as
`Nat` with explicit reduction modulo `2 ^ 64` where the code can overflow.
Fallible code (Rust panics) is modelled with `Option`.  Stateful code is
modelled as explicit state passing; for the interrupt-masking mutex the
intermediate states of `unlock` are exposed as a list so that the ordering of
its effects can be stated.
-/
import Mathlib

namespace HermitSync

/-- Width of a machine word value range: `usize` is 64 bits wide here. -/
def W64 : Nat := 2 ^ 64

/-- Rust `usize::MAX`. -/
def WORD_MAX : Nat := W64 - 1

/-! ### Arithmetic characterizations of the bit operations used by the code

The Rust sources use `fetch_and`, `fetch_or`, `fetch_xor` with small masks.
These lemmas rewrite the corresponding `Nat` bitwise operations into `/`, `%`
and `+`/`*` form so that `omega` can reason about them.
-/

theorem and_two_eq (x : Nat) : x &&& 2 = 2 * (x / 2 % 2) := by
  have hm : (x &&& 2) % 2 = 0 := by
    have h := Nat.and_mod_two_eq_one (a := x) (b := 2)
    omega
  have hd : (x &&& 2) / 2 = x / 2 % 2 := by
    have h := Nat.and_div_two (a := x) (b := 2)
    simpa using h
  have h0 := Nat.div_add_mod (x &&& 2) 2
  omega

theorem and_three_eq (x : Nat) : x &&& 3 = x % 4 := by
  have h := Nat.and_pow_two_sub_one_eq_mod x 2
  norm_num at h
  exact h

theorem and_one_eq (x : Nat) : x &&& 1 = x % 2 := Nat.and_one_is_mod x

/-- Clearing all bits but the lowest `n` of the mask `2 ^ (n + 1) - 2`,
which keeps bits `1` to `n` and clears bit `0`. -/
theorem and_two_pow_sub_two (x n : Nat) :
    x &&& (2 ^ (n + 1) - 2) = 2 * (x / 2 % 2 ^ n) := by
  have hm : (x &&& (2 ^ (n + 1) - 2)) % 2 = 0 := by
    have h := Nat.and_mod_two_eq_one (a := x) (b := 2 ^ (n + 1) - 2)
    have h2 : (2 ^ (n + 1) - 2) % 2 = 0 := by
      have : 2 ^ (n + 1) = 2 * 2 ^ n := by ring
      omega
    omega
  have hhalf : (2 ^ (n + 1) - 2) / 2 = 2 ^ n - 1 := by
    have : 2 ^ (n + 1) = 2 * 2 ^ n := by ring
    omega
  have hd : (x &&& (2 ^ (n + 1) - 2)) / 2 = x / 2 % 2 ^ n := by
    have h := Nat.and_div_two (a := x) (b := 2 ^ (n + 1) - 2)
    rw [hhalf] at h
    rw [h, Nat.and_pow_two_sub_one_eq_mod]
  have h0 := Nat.div_add_mod (x &&& (2 ^ (n + 1) - 2)) 2
  omega

/-- The effect of `fetch_and(!EXCLUSIVE)`: clearing bit 0 of a word. -/
theorem and_maskE (x : Nat) (hx : x < W64) : x &&& (W64 - 2) = 2 * (x / 2) := by
  have h : x &&& (2 ^ (63 + 1) - 2) = 2 * (x / 2 % 2 ^ 63) := and_two_pow_sub_two x 63
  have hlt : x / 2 < 2 ^ 63 := by
    have : x < 2 ^ 64 := hx
    omega
  rw [Nat.mod_eq_of_lt hlt] at h
  exact h

/-- The effect of `fetch_and(!UPGRADABLE)`: clearing bit 1 of a word. -/
theorem and_maskU (x : Nat) (hx : x < W64) :
    x &&& (W64 - 3) = x % 2 + 4 * (x / 4) := by
  have hm : (x &&& (W64 - 3)) % 2 = x % 2 := by
    have h := Nat.and_mod_two_eq_one (a := x) (b := W64 - 3)
    have h2 : (W64 - 3) % 2 = 1 := by decide
    omega
  have hhalf : (W64 - 3) / 2 = 2 ^ (62 + 1) - 2 := by decide
  have hd : (x &&& (W64 - 3)) / 2 = 2 * (x / 2 / 2 % 2 ^ 62) := by
    have h := Nat.and_div_two (a := x) (b := W64 - 3)
    rw [hhalf] at h
    rw [h, and_two_pow_sub_two]
  have hq : x / 2 / 2 = x / 4 := by omega
  have hlt : x / 4 < 2 ^ 62 := by
    have : x < 2 ^ 64 := hx
    omega
  rw [hq, Nat.mod_eq_of_lt hlt] at hd
  have h0 := Nat.div_add_mod (x &&& (W64 - 3)) 2
  omega

theorem or_one_eq (y : Nat) : y ||| 1 = 2 * (y / 2) + 1 := by
  have hm : (y ||| 1) % 2 = 1 := by
    have h := Nat.or_mod_two_eq_one (a := y) (b := 1)
    omega
  have hd : (y ||| 1) / 2 = y / 2 := by
    have h := Nat.or_div_two (a := y) (b := 1)
    simpa using h
  have h0 := Nat.div_add_mod (y ||| 1) 2
  omega

/-- The effect of `fetch_or(UPGRADABLE)`: setting bit 1 of a word. -/
theorem or_two_eq (x : Nat) : x ||| 2 = 4 * (x / 4) + 2 + x % 2 := by
  have hm : (x ||| 2) % 2 = x % 2 := by
    have h := Nat.or_mod_two_eq_one (a := x) (b := 2)
    omega
  have hd : (x ||| 2) / 2 = 2 * (x / 2 / 2) + 1 := by
    have h := Nat.or_div_two (a := x) (b := 2)
    simp only [show (2 : Nat) / 2 = 1 by rfl] at h
    rw [h, or_one_eq]
  have hq : x / 2 / 2 = x / 4 := by omega
  rw [hq] at hd
  have h0 := Nat.div_add_mod (x ||| 2) 2
  omega

theorem or_two_of_bit1_clear (x : Nat) (h : x / 2 % 2 = 0) : x ||| 2 = x + 2 := by
  have h1 := or_two_eq x
  omega

theorem or_two_of_bit1_set (x : Nat) (h : x / 2 % 2 = 1) : x ||| 2 = x := by
  have h1 := or_two_eq x
  omega

/-! ### Backoff pacer (src/backoff.rs)

```rust
pub struct Backoff { step: u8 }
impl Backoff {
    const YIELD_LIMIT: u8 = 10;
    pub fn new() -> Self { Backoff { step: 0 } }
    pub fn snooze(&mut self) {
        for _ in 0..1_u16 << self.step { core::hint::spin_loop(); }
        if !self.is_completed() { self.step += 1; }
    }
    pub fn is_completed(&self) -> bool { self.step > Self::YIELD_LIMIT }
}
```

The `u8` counter never overflows because increments are guarded by
`is_completed`; reachable steps stay at most `11 < 2 ^ 8`.  The `u16` shift in
`snooze` is exact for reachable steps (`step ≤ 11 < 16`).  `snooze` returns
the number of issued spin-loop hints together with the updated pacer.
-/

structure Backoff where
  step : Nat
deriving DecidableEq

def YIELD_LIMIT : Nat := 10

def Backoff.new : Backoff := ⟨0⟩

def Backoff.is_completed (b : Backoff) : Bool := decide (b.step > YIELD_LIMIT)

def Backoff.snooze (b : Backoff) : Nat × Backoff :=
  (1 <<< b.step, if b.is_completed then b else ⟨b.step + 1⟩)

/-- States of one pacer instance reachable from `Backoff.new` by `snooze`. -/
def BackoffReach (b : Backoff) : Prop :=
  Relation.ReflTransGen (fun a c => c = (Backoff.snooze a).2) Backoff.new b

theorem backoffReach_step_le (b : Backoff) (h : BackoffReach b) : b.step ≤ 11 := by
  induction h with
  | refl => decide
  | tail _ hstep ih =>
    rename_i a c _
    rw [hstep]
    simp only [Backoff.snooze, Backoff.is_completed, YIELD_LIMIT]
    split
    · exact ih
    · rename_i hcond
      simp only [decide_eq_true_eq, Nat.not_lt] at hcond
      show a.step + 1 ≤ 11
      omega

theorem backoffReach_of_step_le (k : Nat) (h : k ≤ 11) : BackoffReach ⟨k⟩ := by
  induction k with
  | zero => exact Relation.ReflTransGen.refl
  | succ n ih =>
    refine Relation.ReflTransGen.tail (ih (by omega)) ?_
    simp only [Backoff.snooze, Backoff.is_completed, YIELD_LIMIT]
    rw [if_neg]
    simp only [decide_eq_true_eq]
    omega

/-- C8, counterexample: the claim fixes `STEP_MAX = 11` and asserts that
`is_completed()` returns true iff `step > STEP_MAX`.  The code compares
against `YIELD_LIMIT = 10`: the reachable pacer state with `step = 11`
(obtained after eleven snoozes) satisfies `is_completed = true` although
`step > 11` is false. -/
theorem C8_counterexample :
    BackoffReach ⟨11⟩ ∧ Backoff.is_completed ⟨11⟩ = true ∧
      ¬ (Backoff.mk 11).step > 11 :=
  ⟨backoffReach_of_step_le 11 (by omega), by decide, by decide⟩

/-- C8 (amended): for the backoff pacer with `YIELD_LIMIT = 10`, the step
counter starts at 0, each snooze spins `2 ^ step` pause hints and then
increments step unless `is_completed` already holds, step never exceeds
`YIELD_LIMIT + 1 = 11` on reachable states, and `is_completed()` returns true
iff `step > YIELD_LIMIT` (not `step > 11` as the claim stated). -/
theorem C8_theorem (b : Backoff) (h : BackoffReach b) :
    Backoff.new.step = 0 ∧
    b.step ≤ 11 ∧
    (b.is_completed = true ↔ b.step > YIELD_LIMIT) ∧
    (Backoff.snooze b).1 = 2 ^ b.step ∧
    (Backoff.snooze b).2.step =
      (if b.step > YIELD_LIMIT then b.step else b.step + 1) := by
  refine ⟨rfl, backoffReach_step_le b h, ?_, ?_, ?_⟩
  · simp [Backoff.is_completed]
  · simp [Backoff.snooze, Nat.shiftLeft_eq]
  · simp only [Backoff.snooze, Backoff.is_completed]
    by_cases hc : b.step > YIELD_LIMIT
    · rw [if_pos (by simpa using hc), if_pos hc]
    · rw [if_neg (by simpa using hc), if_neg hc]

/-- C8, witness: the theorem instantiated at the fresh pacer. -/
theorem C8_witness :
    Backoff.new.step = 0 ∧
    Backoff.new.step ≤ 11 ∧
    (Backoff.new.is_completed = true ↔ Backoff.new.step > YIELD_LIMIT) ∧
    (Backoff.snooze Backoff.new).1 = 2 ^ Backoff.new.step ∧
    (Backoff.snooze Backoff.new).2.step =
      (if Backoff.new.step > YIELD_LIMIT then Backoff.new.step
       else Backoff.new.step + 1) :=
  C8_theorem Backoff.new Relation.ReflTransGen.refl

/-! ### Interrupt-flag gate (src/interrupts.rs, `target_os = "none"`, x86_64)

```rust
pub fn without_interrupts<F, R>(f: F) -> R where F: FnOnce() -> R {
    let flags = read_disable();
    let ret = f();
    restore(flags);
    ret
}
pub(crate) fn read_disable() -> imp::Flags {
    if cfg!(target_os = "none") {
        let flags = imp::get();
        if flags != DISABLE { imp::set(DISABLE); }
        flags
    } else { DISABLE }
}
pub(crate) fn restore(flags: imp::Flags) {
    if flags != DISABLE && cfg!(target_os = "none") { imp::set(flags); }
}
```

On x86_64 `imp::Flags = bool` (true = interrupts enabled) and
`DISABLE = false`.  The hardware interrupt-enable bit is the state `Bool`
threaded through the functions.  We model the freestanding
(`target_os = "none"`) configuration where the gate has an effect.  A closure
outcome is `Option R`: `some r` is a normal return of `r`, `none` is a panic
that propagates; statements after a panicking call do not run.
-/

/-- Rust constant `DISABLE` from the x86_64 `imp` module. -/
def DISABLE : Bool := false

/-- Returns the prior flag value together with the interrupt state afterwards. -/
def read_disable (s : Bool) : Bool × Bool :=
  let flags := s
  (flags, if flags != DISABLE then DISABLE else s)

/-- Returns the interrupt state after restoring `flags`. -/
def restore (flags : Bool) (s : Bool) : Bool :=
  if flags != DISABLE then flags else s

/-- Returns the outcome of the call (propagating a panic of the closure) and
the interrupt state afterwards. -/
def without_interrupts {R : Type} (f : Option R) (s : Bool) : Option R × Bool :=
  let p := read_disable s
  match f with
  | some ret => (some ret, restore p.1 p.2)
  | none => (none, p.2)

/-- C7, counterexample: calling `without_interrupts` with interrupts enabled
on a closure that terminates abnormally (panics) leaves interrupts disabled:
the pre-call interrupt-enable state is not re-established, because `restore`
is only reached on the normal return path. -/
theorem C7_counterexample :
    (without_interrupts (R := Unit) none true).2 ≠ true := by
  decide

/-- C7 (amended): the saved interrupt-flag value is restored on the normal
return path of `without_interrupts`, re-establishing the pre-call
interrupt-enable state; on abnormal termination (panic) of the closure,
`restore` does not run and interrupts are left disabled. -/
theorem C7_theorem (R : Type) (f : Option R) (s : Bool) :
    (∀ r, f = some r → (without_interrupts f s).2 = s) ∧
    (f = none → (without_interrupts f s).2 = DISABLE) := by
  constructor
  · rintro r rfl
    cases s <;> rfl
  · rintro rfl
    cases s <;> rfl

/-- C7, witness: a closure returning `7` under initially enabled interrupts
leaves interrupts enabled again. -/
theorem C7_witness : (without_interrupts (some 7) true).2 = true :=
  (C7_theorem Nat (some 7) true).1 7 rfl

/-- C10: for every closure that returns normally, `without_interrupts`
returns exactly the closure's value, regardless of the interrupt-enable state
at the time of the call. -/
theorem C10_theorem (R : Type) (r : R) (s : Bool) :
    (without_interrupts (some r) s).1 = some r := by
  cases s <;> rfl

/-! ### Interrupt-masking mutex (src/mutex/interrupt.rs)

```rust
pub struct RawInterruptMutex<I> {
    inner: I,
    interrupt_guard: UnsafeCell<MaybeUninit<interrupts::Guard>>,
}
unsafe fn unlock(&self) {
    let guard = unsafe { self.interrupt_guard.get().replace(MaybeUninit::uninit()) };
    let guard = unsafe { guard.assume_init() };
    unsafe { self.inner.unlock(); }
    drop(guard);
}
```

The state carries the inner raw mutex's locked flag, the saved-guard slot
(`none` models `MaybeUninit::uninit()`), and the CPU interrupt-enable bit.
An `interrupts::Guard` is modelled by the flag value it saved; dropping it
restores that value via `restore` (the spec's C2 contract: dropping the guard
re-enables interrupts iff they were enabled when the guard was created).
`im_unlock` returns the successive states after each of the three statements
of `unlock`, so the order of its effects is observable.
-/

structure IMState where
  innerLocked : Bool
  saved : Option Bool
  intEnabled : Bool
deriving DecidableEq

/-- Dropping an `interrupts::Guard` restores the saved interrupt flags. -/
def dropGuard (g : Option Bool) (s : Bool) : Bool :=
  match g with
  | some flags => restore flags s
  | none => s

/-- Intermediate states of `RawInterruptMutex::unlock`: after taking the
guard out of the slot, after `inner.unlock()`, and after `drop(guard)`. -/
def im_unlock (st : IMState) : List IMState :=
  let guard := st.saved
  let st1 : IMState := { st with saved := none }
  let st2 : IMState := { st1 with innerLocked := false }
  let st3 : IMState := { st2 with intEnabled := dropGuard guard st2.intEnabled }
  [st1, st2, st3]

/-- C6: in `RawInterruptMutex::unlock`, run from a held state (inner locked,
interrupts disabled, flag value `F` saved), the saved value is taken out of
the slot first (state 1 has an empty slot while the inner mutex is still
locked), then the inner unlock runs (state 2), and only then are interrupts
restored to `F` (state 3); in every intermediate state in which interrupts
are enabled, the inner mutex is already unlocked, so restore never precedes
`inner.unlock()`. -/
theorem C6_theorem (st : IMState) (F : Bool)
    (hlock : st.innerLocked = true) (hint : st.intEnabled = false)
    (hsaved : st.saved = some F) :
    im_unlock st =
      [⟨true, none, false⟩, ⟨false, none, false⟩, ⟨false, none, F⟩] ∧
    ∀ s ∈ im_unlock st, s.intEnabled = true → s.innerLocked = false := by
  obtain ⟨l, v, i⟩ := st
  cases hlock
  cases hint
  cases hsaved
  constructor
  · cases F <;> rfl
  · intro s hs
    cases F <;> simp [im_unlock, dropGuard, restore] at hs <;>
      rcases hs with rfl | rfl | rfl <;> simp

/-- C6, witness: the theorem at the concrete held state that saved enabled
interrupts. -/
theorem C6_witness :
    im_unlock ⟨true, some true, false⟩ =
      [⟨true, none, false⟩, ⟨false, none, false⟩, ⟨false, none, true⟩] ∧
    ∀ s ∈ im_unlock ⟨true, some true, false⟩,
      s.intEnabled = true → s.innerLocked = false :=
  C6_theorem ⟨true, some true, false⟩ true rfl rfl rfl

/-! ### Ticket mutex (src/mutex/ticket.rs)

```rust
pub struct RawTicketMutex {
    next_ticket: AtomicUsize,
    next_serving: AtomicUsize,
}
fn try_lock(&self) -> bool {
    let ticket = self.next_ticket.fetch_update(SeqCst, SeqCst, |ticket| {
        if self.next_serving.load(Acquire) == ticket { Some(ticket + 1) } else { None }
    });
    ticket.is_ok()
}
fn is_locked(&self) -> bool {
    let ticket = self.next_ticket.load(Relaxed);
    self.next_serving.load(Relaxed) != ticket
}
```

`fetch_update` updates `next_ticket` with the closure's value when it returns
`Some` and leaves the counter untouched when it returns `None`.  Counters are
machine words, so the increment is modulo `2 ^ 64`.
-/

structure TicketState where
  next_ticket : Nat
  next_serving : Nat
deriving DecidableEq

def RawTicketMutex_INIT : TicketState := ⟨0, 0⟩

def ticket_try_lock (s : TicketState) : Bool × TicketState :=
  if s.next_serving == s.next_ticket then
    (true, ⟨(s.next_ticket + 1) % W64, s.next_serving⟩)
  else
    (false, s)

def ticket_is_locked (s : TicketState) : Bool :=
  s.next_serving != s.next_ticket

/-- C5: `try_lock` on the ticket mutex succeeds iff `next_serving` equals
`next_ticket` at the moment of the operation; on success it increments
`next_ticket` by exactly one (modulo the word size) while leaving
`next_serving` unchanged, so the mutex is locked afterwards; on failure both
counters are left unchanged. -/
theorem C5_theorem (s : TicketState)
    (ht : s.next_ticket < W64) (hs : s.next_serving < W64) :
    ((ticket_try_lock s).1 = true ↔ s.next_serving = s.next_ticket) ∧
    ((ticket_try_lock s).1 = true →
      (ticket_try_lock s).2.next_ticket = (s.next_ticket + 1) % W64 ∧
      (ticket_try_lock s).2.next_serving = s.next_serving ∧
      ticket_is_locked (ticket_try_lock s).2 = true) ∧
    ((ticket_try_lock s).1 = false → (ticket_try_lock s).2 = s) := by
  obtain ⟨t, v⟩ := s
  have ht2 : t < W64 := ht
  by_cases h : v = t
  · subst h
    have hred : ticket_try_lock ⟨v, v⟩ = (true, ⟨(v + 1) % W64, v⟩) := by
      simp [ticket_try_lock]
    rw [hred]
    refine ⟨by simp, fun _ => ⟨rfl, rfl, ?_⟩, by simp⟩
    simp only [ticket_is_locked, bne_iff_ne, ne_eq]
    show ¬ v = (v + 1) % W64
    have hv2 : v < W64 := ht2
    have hW : (2 : Nat) ≤ W64 := by decide
    rcases Nat.lt_or_ge (v + 1) W64 with hlt | hge
    · rw [Nat.mod_eq_of_lt hlt]
      omega
    · have hv : v + 1 = W64 := by omega
      rw [hv, Nat.mod_self]
      omega
  · have hred : ticket_try_lock ⟨t, v⟩ = (false, ⟨t, v⟩) := by
      simp only [ticket_try_lock]
      rw [if_neg]
      simp only [beq_iff_eq]
      exact h
    rw [hred]
    exact ⟨by simpa using h, by simp, fun _ => rfl⟩

/-- C5, witness: the theorem at the initial (unlocked) ticket mutex. -/
theorem C5_witness :
    ((ticket_try_lock RawTicketMutex_INIT).1 = true ↔
      RawTicketMutex_INIT.next_serving = RawTicketMutex_INIT.next_ticket) ∧
    ((ticket_try_lock RawTicketMutex_INIT).1 = true →
      (ticket_try_lock RawTicketMutex_INIT).2.next_ticket =
        (RawTicketMutex_INIT.next_ticket + 1) % W64 ∧
      (ticket_try_lock RawTicketMutex_INIT).2.next_serving =
        RawTicketMutex_INIT.next_serving ∧
      ticket_is_locked (ticket_try_lock RawTicketMutex_INIT).2 = true) ∧
    ((ticket_try_lock RawTicketMutex_INIT).1 = false →
      (ticket_try_lock RawTicketMutex_INIT).2 = RawTicketMutex_INIT) :=
  C5_theorem RawTicketMutex_INIT (by decide) (by decide)

/-! ### RW spinlock (src/rwlock.rs)

```rust
const SHARED: usize = 1 << 2;
const UPGRADABLE: usize = 1 << 1;
const EXCLUSIVE: usize = 1;
```

The lock word is a machine word.  Atomic read-modify-write primitives return
the prior value together with the new word.  `acquire_shared` returns `none`
for the `panic!` on shared-counter overflow, after rolling the add back.
-/

def SHARED : Nat := 1 <<< 2

def UPGRADABLE : Nat := 1 <<< 1

def EXCLUSIVE : Nat := 1

/-- Rust `!x` on `usize`: bitwise complement inside the word. -/
def usizeNot (x : Nat) : Nat := WORD_MAX ^^^ x

/-- Returns `(prior value, new word)` of `fetch_add`, wrapping at the word
size. -/
def fetch_add (w n : Nat) : Nat × Nat := (w, (w + n) % W64)

/-- Returns `(prior value, new word)` of `fetch_sub`, wrapping at the word
size. -/
def fetch_sub (w n : Nat) : Nat × Nat := (w, (w + (W64 - n % W64)) % W64)

/-- Returns `(prior value, new word)` of `fetch_or`. -/
def fetch_or (w n : Nat) : Nat × Nat := (w, w ||| n)

/-- Returns `(prior value, new word)` of `fetch_and`. -/
def fetch_and (w n : Nat) : Nat × Nat := (w, w &&& n)

/-- Returns `(prior value, new word)` of `fetch_xor`. -/
def fetch_xor (w n : Nat) : Nat × Nat := (w, w ^^^ n)

/-- Returns `(success, new word)` of `compare_exchange current expected new`. -/
def compare_exchange (w expected new : Nat) : Bool × Nat :=
  if w == expected then (true, new) else (false, w)

/-- Embedding of `RawRwSpinLock::acquire_shared`: fetch-add `SHARED`, then roll back and
panic (`none`) if the prior value exceeds `usize::MAX / 2`; otherwise return
the prior value.  Result: `(prior value or panic, new word)`. -/
def acquire_shared (w : Nat) : Option Nat × Nat :=
  let p := fetch_add w SHARED
  if p.1 > WORD_MAX / 2 then
    (none, (fetch_sub p.2 SHARED).2)
  else
    (some p.1, p.2)

/-- Embedding of `RawRwLock::unlock_shared`: fetch-sub `SHARED`. -/
def unlock_shared (w : Nat) : Nat := (fetch_sub w SHARED).2

/-- Embedding of `RawRwLock::try_lock_shared`: optimistic add, then roll back via
`unlock_shared` if the prior value had `EXCLUSIVE` set.  Result:
`(outcome or panic, new word)`. -/
def try_lock_shared (w : Nat) : Option Bool × Nat :=
  match acquire_shared w with
  | (none, w1) => (none, w1)
  | (some value, w1) =>
    let acquired := value &&& EXCLUSIVE != EXCLUSIVE
    if acquired then (some true, w1) else (some false, unlock_shared w1)

/-- Embedding of `RawRwLock::try_lock_exclusive`: a single CAS from 0 to `EXCLUSIVE`. -/
def try_lock_exclusive (w : Nat) : Bool × Nat :=
  compare_exchange w 0 EXCLUSIVE

/-- Embedding of `RawRwLock::unlock_exclusive`: fetch-and with `!EXCLUSIVE`. -/
def unlock_exclusive (w : Nat) : Nat := (fetch_and w (usizeNot EXCLUSIVE)).2

/-- Embedding of `RawRwLockUpgrade::unlock_upgradable`: fetch-and with `!UPGRADABLE`. -/
def unlock_upgradable (w : Nat) : Nat := (fetch_and w (usizeNot UPGRADABLE)).2

/-- Embedding of `RawRwLockUpgrade::try_lock_upgradable`: fetch-or `UPGRADABLE`; success
iff the prior value had neither `UPGRADABLE` nor `EXCLUSIVE`; roll back via
`unlock_upgradable` only when unsuccessful and the prior value did not have
`UPGRADABLE`.  Result: `(acquired, rolled back, new word)`. -/
def try_lock_upgradable (w : Nat) : Bool × Bool × Nat :=
  let p := fetch_or w UPGRADABLE
  let acquired := p.1 &&& (UPGRADABLE ||| EXCLUSIVE) == 0
  if !acquired && p.1 &&& UPGRADABLE == 0 then
    (acquired, true, unlock_upgradable p.2)
  else
    (acquired, false, p.2)

/-- Embedding of `RawRwLockUpgrade::try_upgrade`: a single CAS from `UPGRADABLE` to
`EXCLUSIVE`. -/
def try_upgrade (w : Nat) : Bool × Nat :=
  compare_exchange w UPGRADABLE EXCLUSIVE

/-- Embedding of `RawRwLockDowngrade::downgrade`: `acquire_shared` (with its overflow
panic) followed by `unlock_exclusive`.  Result: `(unit or panic, new word)`. -/
def downgrade (w : Nat) : Option Unit × Nat :=
  match acquire_shared w with
  | (none, w1) => (none, w1)
  | (some _, w1) => (some (), unlock_exclusive w1)

/-- Embedding of `RawRwLockUpgradeDowngrade::downgrade_upgradable`: `acquire_shared`
followed by `unlock_upgradable`. -/
def downgrade_upgradable (w : Nat) : Option Unit × Nat :=
  match acquire_shared w with
  | (none, w1) => (none, w1)
  | (some _, w1) => (some (), unlock_upgradable w1)

/-- Embedding of `RawRwLockUpgradeDowngrade::downgrade_to_upgradable`: fetch-xor of
`UPGRADABLE ||| EXCLUSIVE`. -/
def downgrade_to_upgradable (w : Nat) : Nat :=
  (fetch_xor w (UPGRADABLE ||| EXCLUSIVE)).2

/-- Embedding of `RawRwLock::is_locked`. -/
def rw_is_locked (w : Nat) : Bool := w != 0

/-- Embedding of `RawRwLock::is_locked_exclusive`. -/
def is_locked_exclusive (w : Nat) : Bool := w &&& EXCLUSIVE == EXCLUSIVE

/-- Rolling a `fetch_add SHARED` back with `fetch_sub SHARED` restores a
word value, also when the add wrapped. -/
theorem add4_sub4_mod (w : Nat) (hw : w < W64) :
    ((w + 4) % W64 + (W64 - 4 % W64)) % W64 = w := by
  have h4 : (4 : Nat) % W64 = 4 := by decide
  rw [h4, Nat.mod_add_mod]
  have hge : (4 : Nat) ≤ W64 := by decide
  have heq : w + 4 + (W64 - 4) = w + W64 := by omega
  rw [heq, Nat.add_mod_right, Nat.mod_eq_of_lt hw]

theorem acquire_shared_overflow (w : Nat) (hw : w < W64)
    (hover : WORD_MAX / 2 < w) : acquire_shared w = (none, w) := by
  have hS : SHARED = 4 := by decide
  simp only [acquire_shared, fetch_add, fetch_sub, hS]
  rw [if_pos hover, add4_sub4_mod w hw]

theorem acquire_shared_ok (w : Nat) (hok : w ≤ WORD_MAX / 2) :
    acquire_shared w = (some w, w + 4) := by
  have hS : SHARED = 4 := by decide
  have hlt : w + 4 < W64 := by
    have h2 : WORD_MAX / 2 + 4 < W64 := by decide
    omega
  simp only [acquire_shared, fetch_add, hS]
  rw [if_neg (by omega), Nat.mod_eq_of_lt hlt]

/-- C2: when the prior lock word exceeds `usize::MAX / 2`, a shared
acquisition attempt subtracts `SHARED` back, restoring the word to its
pre-call value, and panics (`none`) instead of returning; the shared counter
is never silently wrapped. -/
theorem C2_theorem (w : Nat) (hw : w < W64) (hover : WORD_MAX / 2 < w) :
    try_lock_shared w = (none, w) := by
  rw [try_lock_shared, acquire_shared_overflow w hw hover]

/-- C2, witness: the overflow path at the word value `2 ^ 63`. -/
theorem C2_witness : try_lock_shared (2 ^ 63) = (none, 2 ^ 63) :=
  C2_theorem (2 ^ 63) (by decide) (by decide)

/-- C3: `try_lock_upgradable` succeeds iff the prior word had neither the
`UPGRADABLE` nor the `EXCLUSIVE` bit (then the new word is the prior one with
`UPGRADABLE` set); on failure it rolls back by clearing `UPGRADABLE` iff the
prior word had `EXCLUSIVE` set but not `UPGRADABLE` (the rollback restores
the prior word exactly), and performs no rollback when the prior word already
had `UPGRADABLE` set (the word is then unchanged). -/
theorem C3_theorem (w : Nat) (hw : w < W64) :
    ((try_lock_upgradable w).1 = true ↔
      w &&& (UPGRADABLE ||| EXCLUSIVE) = 0) ∧
    ((try_lock_upgradable w).1 = true →
      (try_lock_upgradable w).2.2 = w ||| UPGRADABLE) ∧
    ((try_lock_upgradable w).2.1 = true ↔
      (w &&& EXCLUSIVE = EXCLUSIVE ∧ w &&& UPGRADABLE = 0)) ∧
    ((try_lock_upgradable w).2.1 = true → (try_lock_upgradable w).2.2 = w) ∧
    ((try_lock_upgradable w).1 = false → (try_lock_upgradable w).2.1 = false →
      (try_lock_upgradable w).2.2 = w) := by
  have hU : UPGRADABLE = 2 := by decide
  have hE : EXCLUSIVE = 1 := by decide
  have hnotU : usizeNot UPGRADABLE = W64 - 3 := by decide
  have hone : w &&& EXCLUSIVE = w % 2 := by rw [hE, and_one_eq]
  have htwo : w &&& UPGRADABLE = 2 * (w / 2 % 2) := by rw [hU, and_two_eq]
  have hthree : w &&& (UPGRADABLE ||| EXCLUSIVE) = w % 4 := by
    rw [show UPGRADABLE ||| EXCLUSIVE = 3 by decide, and_three_eq]
  have hmod : w % 4 = 0 ∨ w % 4 = 1 ∨ (w % 4 = 2 ∨ w % 4 = 3) := by omega
  rcases hmod with hc | hc | hc
  · -- prior word has neither bit: success, no rollback
    have e1 : (w &&& (UPGRADABLE ||| EXCLUSIVE) == 0) = true := by
      rw [hthree, hc]
      decide
    have e2 : try_lock_upgradable w = (true, false, w ||| UPGRADABLE) := by
      simp [try_lock_upgradable, fetch_or, e1]
    refine ⟨?_, ?_, ?_, ?_, ?_⟩
    · rw [e2]
      exact iff_of_true rfl (by rw [hthree, hc])
    · intro _
      rw [e2]
    · rw [e2]
      exact iff_of_false (by simp) (by rw [hone, htwo]; omega)
    · rw [e2]
      intro h
      simp at h
    · rw [e2]
      intro h _
      simp at h
  · -- prior word has EXCLUSIVE but not UPGRADABLE: failure with rollback
    have ebit : w / 2 % 2 = 0 := by omega
    have e1 : (w &&& (UPGRADABLE ||| EXCLUSIVE) == 0) = false := by
      rw [hthree, hc]
      decide
    have e1b : (w &&& UPGRADABLE == 0) = true := by
      rw [htwo, ebit]
      decide
    have e2 : try_lock_upgradable w =
        (false, true, (w ||| UPGRADABLE) &&& usizeNot UPGRADABLE) := by
      simp [try_lock_upgradable, fetch_or, unlock_upgradable, fetch_and, e1, e1b]
    have erest : (w ||| UPGRADABLE) &&& usizeNot UPGRADABLE = w := by
      rw [hnotU, hU]
      have hor := or_two_eq w
      have hx : w ||| 2 < W64 := Nat.or_lt_two_pow hw (by decide)
      rw [and_maskU _ hx]
      omega
    have e3 : try_lock_upgradable w = (false, true, w) := by rw [e2, erest]
    refine ⟨?_, ?_, ?_, ?_, ?_⟩
    · rw [e3]
      exact iff_of_false (by simp) (by rw [hthree]; omega)
    · intro h
      rw [e3] at h
      simp at h
    · rw [e3]
      exact iff_of_true rfl ⟨by rw [hone, hE]; omega, by rw [htwo, ebit]⟩
    · intro _
      rw [e3]
    · intro _ h
      rw [e3] at h
      simp at h
  · -- prior word already has UPGRADABLE: failure without rollback
    have ebit : w / 2 % 2 = 1 := by omega
    have e1 : (w &&& (UPGRADABLE ||| EXCLUSIVE) == 0) = false := by
      rcases hc with hc | hc <;> (rw [hthree, hc]; decide)
    have e1b : (w &&& UPGRADABLE == 0) = false := by
      rw [htwo, ebit]
      decide
    have e2 : try_lock_upgradable w = (false, false, w ||| UPGRADABLE) := by
      simp [try_lock_upgradable, fetch_or, e1, e1b]
    have eor : w ||| UPGRADABLE = w := by
      rw [hU]
      exact or_two_of_bit1_set w ebit
    refine ⟨?_, ?_, ?_, ?_, ?_⟩
    · rw [e2]
      exact iff_of_false (by simp) (by rw [hthree]; omega)
    · intro h
      rw [e2] at h
      simp at h
    · rw [e2]
      exact iff_of_false (by simp) (by rw [hone, htwo, ebit, hE]; omega)
    · rw [e2]
      intro h
      simp at h
    · intro _ _
      rw [e2, eor]

/-- C3, witness: the rollback case at the word `EXCLUSIVE = 1`. -/
theorem C3_witness :
    (try_lock_upgradable 1).2.1 = true ∧ (try_lock_upgradable 1).2.2 = 1 := by
  have h := C3_theorem 1 (by decide)
  exact ⟨h.2.2.1.mpr (by decide), h.2.2.2.1 (h.2.2.1.mpr (by decide))⟩

/-- C4: `try_lock_exclusive` succeeds iff the entire lock word is 0, in which
case the word becomes `EXCLUSIVE`; on failure the word is unchanged.  It
fails on every word carrying a shared holder, and the S3 scenario holds: from
the empty lock, a shared acquisition succeeds, `try_lock_exclusive` then
fails, and after releasing the shared lock it succeeds. -/
theorem C4_theorem (w : Nat) :
    ((try_lock_exclusive w).1 = true ↔ w = 0) ∧
    ((try_lock_exclusive w).1 = true → (try_lock_exclusive w).2 = EXCLUSIVE) ∧
    ((try_lock_exclusive w).1 = false → (try_lock_exclusive w).2 = w) ∧
    (∀ s u e, 0 < s → w = SHARED * s + UPGRADABLE * u + EXCLUSIVE * e →
      (try_lock_exclusive w).1 = false) ∧
    ((try_lock_shared 0).1 = some true ∧
      (try_lock_exclusive (try_lock_shared 0).2).1 = false ∧
      try_lock_exclusive (unlock_shared (try_lock_shared 0).2) =
        (true, EXCLUSIVE)) := by
  refine ⟨?_, ?_, ?_, ?_, ?_⟩
  · by_cases h : w = 0 <;> simp [try_lock_exclusive, compare_exchange, h]
  · by_cases h : w = 0 <;> simp [try_lock_exclusive, compare_exchange, h]
  · by_cases h : w = 0 <;> simp [try_lock_exclusive, compare_exchange, h]
  · intro s u e hs heq
    have hS : SHARED = 4 := by decide
    have hU : UPGRADABLE = 2 := by decide
    have hE : EXCLUSIVE = 1 := by decide
    rw [hS, hU, hE] at heq
    have hne : w ≠ 0 := by omega
    simp [try_lock_exclusive, compare_exchange, hne]
  · refine ⟨?_, ?_, ?_⟩ <;> decide

/-- C4, witness: success on the empty word, failure under one shared
holder. -/
theorem C4_witness :
    (try_lock_exclusive 0).1 = true ∧ (try_lock_exclusive 4).1 = false :=
  ⟨(C4_theorem 0).1.mpr rfl,
    (C4_theorem 4).2.2.2.1 1 0 0 (by decide) (by decide)⟩

/-- C9: from any word with the `EXCLUSIVE` bit set, `downgrade` (when the
word does not exceed `usize::MAX / 2`) adds one reader slot and clears
`EXCLUSIVE`: the result is `w + SHARED - EXCLUSIVE`, whose shared count is
one more than before, whose `EXCLUSIVE` bit is clear, and whose `UPGRADABLE`
bit is unchanged; and `downgrade` is subject to the same fatal overflow check
as shared acquisition: when the prior word exceeds `usize::MAX / 2` it rolls
the add back, restoring the word, and panics. -/
theorem C9_theorem (w : Nat) (hw : w < W64)
    (hexcl : w &&& EXCLUSIVE = EXCLUSIVE) :
    (w ≤ WORD_MAX / 2 →
      downgrade w = (some (), w + SHARED - EXCLUSIVE) ∧
      (w + SHARED - EXCLUSIVE) / SHARED = w / SHARED + 1 ∧
      (w + SHARED - EXCLUSIVE) &&& EXCLUSIVE = 0 ∧
      (w + SHARED - EXCLUSIVE) &&& UPGRADABLE = w &&& UPGRADABLE) ∧
    (WORD_MAX / 2 < w → downgrade w = (none, w)) := by
  have hS : SHARED = 4 := by decide
  have hE : EXCLUSIVE = 1 := by decide
  have hU : UPGRADABLE = 2 := by decide
  have hodd : w % 2 = 1 := by
    rw [hE, and_one_eq] at hexcl
    exact hexcl
  constructor
  · intro hok
    have hlt : w + 4 < W64 := by
      have h2 : WORD_MAX / 2 + 4 < W64 := by decide
      omega
    have hdg : downgrade w = (some (), 2 * ((w + 4) / 2)) := by
      rw [downgrade, acquire_shared_ok w hok]
      simp only [unlock_exclusive, fetch_and]
      rw [hE, show usizeNot 1 = W64 - 2 by decide, and_maskE _ hlt]
    have heq : 2 * ((w + 4) / 2) = w + 3 := by omega
    have hfinal : w + SHARED - EXCLUSIVE = w + 3 := by
      rw [hS, hE]
      omega
    rw [hdg, heq, hfinal, hS, hE]
    refine ⟨rfl, by omega, ?_, ?_⟩
    · rw [and_one_eq]
      omega
    · rw [hU, and_two_eq, and_two_eq]
      omega
  · intro hover
    rw [downgrade, acquire_shared_overflow w hw hover]

/-- C9, witness: downgrading the plain exclusive word `1` yields the word
`SHARED = 4`. -/
theorem C9_witness : downgrade 1 = (some (), 1 + SHARED - EXCLUSIVE) :=
  (((C9_theorem 1 (by decide) (by decide)).1) (by decide)).1

/-! ### Closed forms of the RW operations, for the state-machine proofs -/

theorem unlock_shared_eq (w : Nat) (h4 : 4 ≤ w) (hw : w < W64) :
    unlock_shared w = w - 4 := by
  simp only [unlock_shared, fetch_sub]
  rw [show (SHARED : Nat) % W64 = 4 from by decide]
  rw [show w + (W64 - 4) = (w - 4) + W64 from by
    have h : (4 : Nat) ≤ W64 := by decide
    omega]
  rw [Nat.add_mod_right, Nat.mod_eq_of_lt (by omega)]

theorem unlock_exclusive_eq (w : Nat) (hw : w < W64) :
    unlock_exclusive w = 2 * (w / 2) := by
  simp only [unlock_exclusive, fetch_and]
  rw [show usizeNot EXCLUSIVE = W64 - 2 from by decide]
  exact and_maskE w hw

theorem unlock_upgradable_eq (w : Nat) (hw : w < W64) :
    unlock_upgradable w = w % 2 + 4 * (w / 4) := by
  simp only [unlock_upgradable, fetch_and]
  rw [show usizeNot UPGRADABLE = W64 - 3 from by decide]
  exact and_maskU w hw

theorem try_lock_shared_eq (w : Nat) (hw : w < W64) :
    try_lock_shared w =
      if WORD_MAX / 2 < w then (none, w)
      else if w % 2 = 0 then (some true, w + 4)
      else (some false, w) := by
  by_cases hover : WORD_MAX / 2 < w
  · rw [if_pos hover, try_lock_shared, acquire_shared_overflow w hw hover]
  · have hok : w ≤ WORD_MAX / 2 := by omega
    have hlt : w + 4 < W64 := by
      have h2 : WORD_MAX / 2 + 4 < W64 := by decide
      omega
    rw [if_neg hover, try_lock_shared, acquire_shared_ok w hok]
    have hone : w &&& EXCLUSIVE = w % 2 := by
      rw [show EXCLUSIVE = (1 : Nat) from rfl, and_one_eq]
    by_cases hpar : w % 2 = 0
    · rw [if_pos hpar]
      have hacq : (w &&& EXCLUSIVE != EXCLUSIVE) = true := by
        rw [hone, hpar]
        decide
      simp [hacq]
    · rw [if_neg hpar]
      have hacq : (w &&& EXCLUSIVE != EXCLUSIVE) = false := by
        rw [hone, show w % 2 = 1 from by omega]
        decide
      have hunlock : unlock_shared (w + 4) = w := by
        rw [unlock_shared_eq (w + 4) (by omega) hlt]
        omega
      simp [hacq, hunlock]

theorem try_lock_upgradable_eq (w : Nat) (hw : w < W64) :
    try_lock_upgradable w =
      if w % 4 = 0 then (true, false, w + 2)
      else if w / 2 % 2 = 0 then (false, true, w)
      else (false, false, w) := by
  have hone : w &&& EXCLUSIVE = w % 2 := by
    rw [show EXCLUSIVE = (1 : Nat) from rfl, and_one_eq]
  have htwo : w &&& UPGRADABLE = 2 * (w / 2 % 2) := by
    rw [show UPGRADABLE = (2 : Nat) from rfl, and_two_eq]
  have hthree : w &&& (UPGRADABLE ||| EXCLUSIVE) = w % 4 := by
    rw [show UPGRADABLE ||| EXCLUSIVE = 3 by decide, and_three_eq]
  have hmod : w % 4 = 0 ∨ w % 4 = 1 ∨ (w % 4 = 2 ∨ w % 4 = 3) := by omega
  rcases hmod with hc | hc | hc
  · have e1 : (w &&& (UPGRADABLE ||| EXCLUSIVE) == 0) = true := by
      rw [hthree, hc]
      decide
    rw [if_pos hc]
    have hor : w ||| UPGRADABLE = w + 2 := by
      rw [show UPGRADABLE = (2 : Nat) from rfl]
      exact or_two_of_bit1_clear w (by omega)
    simp [try_lock_upgradable, fetch_or, e1, hor]
  · have ebit : w / 2 % 2 = 0 := by omega
    rw [if_neg (by omega), if_pos ebit]
    have e1 : (w &&& (UPGRADABLE ||| EXCLUSIVE) == 0) = false := by
      rw [hthree, hc]
      decide
    have e1b : (w &&& UPGRADABLE == 0) = true := by
      rw [htwo, ebit]
      decide
    have erest : (w ||| UPGRADABLE) &&& usizeNot UPGRADABLE = w := by
      rw [show usizeNot UPGRADABLE = W64 - 3 from by decide,
        show UPGRADABLE = (2 : Nat) from rfl]
      have hor := or_two_eq w
      have hx : w ||| 2 < W64 := Nat.or_lt_two_pow hw (by decide)
      rw [and_maskU _ hx]
      omega
    simp [try_lock_upgradable, fetch_or, unlock_upgradable, fetch_and, e1, e1b,
      erest]
  · have ebit : w / 2 % 2 = 1 := by omega
    rw [if_neg (by omega), if_neg (by omega)]
    have e1 : (w &&& (UPGRADABLE ||| EXCLUSIVE) == 0) = false := by
      rcases hc with hc | hc <;> (rw [hthree, hc]; decide)
    have e1b : (w &&& UPGRADABLE == 0) = false := by
      rw [htwo, ebit]
      decide
    have eor : w ||| UPGRADABLE = w := by
      rw [show UPGRADABLE = (2 : Nat) from rfl]
      exact or_two_of_bit1_set w ebit
    simp [try_lock_upgradable, fetch_or, e1, e1b, eor]

theorem try_lock_exclusive_true (w w1 : Nat)
    (h : try_lock_exclusive w = (true, w1)) : w = 0 ∧ w1 = EXCLUSIVE := by
  by_cases hc : w = 0
  · subst hc
    simp [try_lock_exclusive, compare_exchange] at h
    exact ⟨rfl, h.symm⟩
  · simp [try_lock_exclusive, compare_exchange, hc] at h

theorem try_lock_exclusive_false (w w1 : Nat)
    (h : try_lock_exclusive w = (false, w1)) : w1 = w := by
  by_cases hc : w = 0
  · subst hc
    simp [try_lock_exclusive, compare_exchange] at h
  · simp [try_lock_exclusive, compare_exchange, hc] at h
    exact h.symm

theorem try_upgrade_true (w w1 : Nat)
    (h : try_upgrade w = (true, w1)) : w = UPGRADABLE ∧ w1 = EXCLUSIVE := by
  by_cases hc : w = UPGRADABLE
  · subst hc
    simp [try_upgrade, compare_exchange] at h
    exact ⟨rfl, h.symm⟩
  · simp [try_upgrade, compare_exchange, hc] at h

theorem try_upgrade_false (w w1 : Nat)
    (h : try_upgrade w = (false, w1)) : w1 = w := by
  by_cases hc : w = UPGRADABLE
  · subst hc
    simp [try_upgrade, compare_exchange] at h
  · simp [try_upgrade, compare_exchange, hc] at h
    exact h.symm

/-! ### RW lock state machine

A state couples the lock word with ghost holder counts.  A step is one
complete lock operation (a blocking `lock_*` succeeds through the same word
transition as its `try_*` variant, so the `try` steps cover both).  The
holder-only preconditions (`0 < shared` for `unlock_shared` and so on)
express the claim's assumption that each unlock / upgrade / downgrade is
performed only by a corresponding holder.  A panicking operation
(shared-counter overflow) terminates the process and contributes no step.
-/

structure RwState where
  w : Nat
  shared : Nat
  excl : Nat
  upg : Nat
deriving DecidableEq

/-- The constant `RawRwSpinLock::INIT` (lock word 0) with no holders. -/
def RwInit : RwState := ⟨0, 0, 0, 0⟩

inductive RwStep : RwState → RwState → Prop where
  | try_lock_shared_ok (s : RwState) (w1 : Nat)
      (h : try_lock_shared s.w = (some true, w1)) :
      RwStep s ⟨w1, s.shared + 1, s.excl, s.upg⟩
  | try_lock_shared_fail (s : RwState) (w1 : Nat)
      (h : try_lock_shared s.w = (some false, w1)) :
      RwStep s ⟨w1, s.shared, s.excl, s.upg⟩
  | unlock_shared_holder (s : RwState) (h : 0 < s.shared) :
      RwStep s ⟨unlock_shared s.w, s.shared - 1, s.excl, s.upg⟩
  | try_lock_exclusive_ok (s : RwState) (w1 : Nat)
      (h : try_lock_exclusive s.w = (true, w1)) :
      RwStep s ⟨w1, s.shared, s.excl + 1, s.upg⟩
  | try_lock_exclusive_fail (s : RwState) (w1 : Nat)
      (h : try_lock_exclusive s.w = (false, w1)) :
      RwStep s ⟨w1, s.shared, s.excl, s.upg⟩
  | unlock_exclusive_holder (s : RwState) (h : 0 < s.excl) :
      RwStep s ⟨unlock_exclusive s.w, s.shared, s.excl - 1, s.upg⟩
  | try_lock_upgradable_ok (s : RwState) (rb : Bool) (w1 : Nat)
      (h : try_lock_upgradable s.w = (true, rb, w1)) :
      RwStep s ⟨w1, s.shared, s.excl, s.upg + 1⟩
  | try_lock_upgradable_fail (s : RwState) (rb : Bool) (w1 : Nat)
      (h : try_lock_upgradable s.w = (false, rb, w1)) :
      RwStep s ⟨w1, s.shared, s.excl, s.upg⟩
  | unlock_upgradable_holder (s : RwState) (h : 0 < s.upg) :
      RwStep s ⟨unlock_upgradable s.w, s.shared, s.excl, s.upg - 1⟩
  | try_upgrade_ok (s : RwState) (w1 : Nat) (h0 : 0 < s.upg)
      (h : try_upgrade s.w = (true, w1)) :
      RwStep s ⟨w1, s.shared, s.excl + 1, s.upg - 1⟩
  | try_upgrade_fail (s : RwState) (w1 : Nat) (h0 : 0 < s.upg)
      (h : try_upgrade s.w = (false, w1)) :
      RwStep s ⟨w1, s.shared, s.excl, s.upg⟩
  | downgrade_holder (s : RwState) (w1 : Nat) (h0 : 0 < s.excl)
      (h : downgrade s.w = (some (), w1)) :
      RwStep s ⟨w1, s.shared + 1, s.excl - 1, s.upg⟩
  | downgrade_upgradable_holder (s : RwState) (w1 : Nat) (h0 : 0 < s.upg)
      (h : downgrade_upgradable s.w = (some (), w1)) :
      RwStep s ⟨w1, s.shared + 1, s.excl, s.upg - 1⟩
  | downgrade_to_upgradable_holder (s : RwState) (h0 : 0 < s.excl) :
      RwStep s ⟨downgrade_to_upgradable s.w, s.shared, s.excl - 1, s.upg + 1⟩

/-- Steady states reachable from `INIT` by complete operations. -/
def RwReachable (s : RwState) : Prop :=
  Relation.ReflTransGen RwStep RwInit s

/-- The inductive invariant: the lock word is exactly the encoding
`SHARED * shared + UPGRADABLE * upg + EXCLUSIVE * excl` of the holder counts,
the exclusive and upgradable counts are at most one, an exclusive holder
excludes every other holder, and the word stays below the overflow cap. -/
def RwInvP (w n e u : Nat) : Prop :=
  w = 4 * n + 2 * u + e ∧
  e ≤ 1 ∧ u ≤ 1 ∧
  (e = 1 → n = 0 ∧ u = 0) ∧
  w ≤ 2 ^ 63 + 3

def RwInv (s : RwState) : Prop := RwInvP s.w s.shared s.excl s.upg

theorem rwStep_preserves (s t : RwState) (hinv : RwInv s)
    (hstep : RwStep s t) : RwInv t := by
  simp only [RwInv, RwInvP] at hinv
  obtain ⟨hw, he, hu, hex, hb⟩ := hinv
  have hWlit : (2 : Nat) ^ 63 + 3 < W64 := by decide
  have hMlit : WORD_MAX / 2 = 2 ^ 63 - 1 := by decide
  have hw64 : s.w < W64 := by omega
  cases hstep with
  | try_lock_shared_ok w1 h =>
    rw [try_lock_shared_eq s.w hw64] at h
    split_ifs at h with h1 h2
    · simp at h
    · injection h with ha hw1
      simp only [RwInv, RwInvP]
      omega
    · simp at h
  | try_lock_shared_fail w1 h =>
    rw [try_lock_shared_eq s.w hw64] at h
    split_ifs at h with h1 h2
    · simp at h
    · simp at h
    · injection h with ha hw1
      simp only [RwInv, RwInvP]
      omega
  | unlock_shared_holder h =>
    have hE : s.excl = 0 := by
      by_contra hc
      have h1 := hex (by omega)
      omega
    have h4 : 4 ≤ s.w := by omega
    have hrw := unlock_shared_eq s.w h4 hw64
    simp only [RwInv, RwInvP]
    omega
  | try_lock_exclusive_ok w1 h =>
    obtain ⟨hz, hw1⟩ := try_lock_exclusive_true s.w w1 h
    have hE : EXCLUSIVE = 1 := rfl
    simp only [RwInv, RwInvP]
    omega
  | try_lock_exclusive_fail w1 h =>
    have hw1 := try_lock_exclusive_false s.w w1 h
    simp only [RwInv, RwInvP]
    omega
  | unlock_exclusive_holder h =>
    have h1 := hex (by omega)
    have hrw := unlock_exclusive_eq s.w hw64
    simp only [RwInv, RwInvP]
    omega
  | try_lock_upgradable_ok rb w1 h =>
    rw [try_lock_upgradable_eq s.w hw64] at h
    split_ifs at h with h1 h2
    · injection h with ha hrest
      injection hrest with hrb hw1
      simp only [RwInv, RwInvP]
      omega
    · simp at h
    · simp at h
  | try_lock_upgradable_fail rb w1 h =>
    rw [try_lock_upgradable_eq s.w hw64] at h
    split_ifs at h with h1 h2
    · simp at h
    · injection h with ha hrest
      injection hrest with hrb hw1
      simp only [RwInv, RwInvP]
      omega
    · injection h with ha hrest
      injection hrest with hrb hw1
      simp only [RwInv, RwInvP]
      omega
  | unlock_upgradable_holder h =>
    have hE : s.excl = 0 := by
      by_contra hc
      have h1 := hex (by omega)
      omega
    have hrw := unlock_upgradable_eq s.w hw64
    simp only [RwInv, RwInvP]
    omega
  | try_upgrade_ok w1 h0 h =>
    obtain ⟨hz, hw1⟩ := try_upgrade_true s.w w1 h
    have hU : UPGRADABLE = 2 := rfl
    have hE : EXCLUSIVE = 1 := rfl
    simp only [RwInv, RwInvP]
    omega
  | try_upgrade_fail w1 h0 h =>
    have hw1 := try_upgrade_false s.w w1 h
    simp only [RwInv, RwInvP]
    omega
  | downgrade_holder w1 h0 h =>
    have h1 := hex (by omega)
    have hwv : s.w = 1 := by omega
    rw [hwv, show downgrade 1 = (some (), 4) from by decide] at h
    injection h with ha hw1
    simp only [RwInv, RwInvP]
    omega
  | downgrade_upgradable_holder w1 h0 h =>
    have hE : s.excl = 0 := by
      by_contra hc
      have h1 := hex (by omega)
      omega
    by_cases hover : WORD_MAX / 2 < s.w
    · rw [downgrade_upgradable, acquire_shared_overflow s.w hw64 hover] at h
      simp at h
    · have hok : s.w ≤ WORD_MAX / 2 := by omega
      have hlt : s.w + 4 < W64 := by omega
      rw [downgrade_upgradable, acquire_shared_ok s.w hok] at h
      simp only [unlock_upgradable_eq (s.w + 4) hlt] at h
      injection h with ha hw1
      simp only [RwInv, RwInvP]
      omega
  | downgrade_to_upgradable_holder h0 =>
    have h1 := hex (by omega)
    have hwv : s.w = 1 := by omega
    have hrw : downgrade_to_upgradable s.w = 2 := by
      rw [hwv]
      decide
    simp only [RwInv, RwInvP]
    omega

theorem rwReachable_inv (s : RwState) (h : RwReachable s) : RwInv s := by
  induction h with
  | refl =>
    exact ⟨by decide, by decide, by decide, fun _ => ⟨rfl, rfl⟩, by decide⟩
  | tail _ hstep ih =>
    exact rwStep_preserves _ _ ih hstep

/-- C1: in every RW-spinlock execution from `INIT` in which each unlock,
upgrade and downgrade is performed only by a corresponding holder, every
reachable steady state has at most one exclusive holder, exclusive and shared
holders never coexist, at most one upgradable holder exists, and the
`EXCLUSIVE` (bit 0) and `UPGRADABLE` (bit 1) bits of the lock word are never
both set. -/
theorem C1_theorem (s : RwState) (h : RwReachable s) :
    s.excl ≤ 1 ∧
    s.excl * s.shared = 0 ∧
    s.upg ≤ 1 ∧
    ¬ (s.w.testBit 0 = true ∧ s.w.testBit 1 = true) := by
  have hinv := rwReachable_inv s h
  simp only [RwInv, RwInvP] at hinv
  obtain ⟨hw, he, hu, hex, hb⟩ := hinv
  refine ⟨he, ?_, hu, ?_⟩
  · rcases Nat.eq_zero_or_pos s.excl with h0 | h0
    · rw [h0, Nat.zero_mul]
    · have h1 := hex (by omega)
      rw [h1.1, Nat.mul_zero]
  · rintro ⟨hb0, hb1⟩
    rw [Nat.testBit_zero, decide_eq_true_eq] at hb0
    rw [show (1 : Nat) = 0 + 1 from rfl, Nat.testBit_add_one,
      Nat.testBit_zero, decide_eq_true_eq] at hb1
    have h1 := hex (by omega)
    omega

/-- C1, witness: the invariant properties at the initial state. -/
theorem C1_witness :
    RwInit.excl ≤ 1 ∧
    RwInit.excl * RwInit.shared = 0 ∧
    RwInit.upg ≤ 1 ∧
    ¬ (RwInit.w.testBit 0 = true ∧ RwInit.w.testBit 1 = true) :=
  C1_theorem RwInit Relation.ReflTransGen.refl

end HermitSync
